import Mathlib

/-!
# Verification of the Lexes list-management core

A shallow embedding, in Lean 4, of the list-management classes of the Lexes
flashcard application (`classes/entry.py`, `classes/helper.py`,
`classes/display_list.py`, `classes/import_list.py`), together with proofs of
the behavioural properties stated in the specification.

Modelling conventions:
* Python strings are Lean `String`s; the Python string operations used by the
  code (`.strip()`, `.lower()`, `.split(sep, 1)`, `re.split`, `<` on strings,
  substring `in`) are embedded as structurally recursive functions on the
  underlying `List Char`, matching Python's code-point semantics (lowercasing
  is modelled on the ASCII range, which is what the repository's data uses).
* The SQLite table `master` is a `List Row`; each database access is passed
  the row list explicitly.  Autoincrement assigns `max uid + 1`.
* The Wikipedia lookup (`Helper.wikipediaAPI`) is an external HTTP service; it
  is modelled as an oracle parameter `lookup : String → Option String`
  (`none` = not found / request error), exactly the black-box treatment the
  specification gives it.
* Methods that mutate `self` are modelled as functions returning the updated
  object (and the updated row list, where the database is written).
-/

/-! ## String primitives (embedding of the Python string operations) -/

/-- Whitespace test used by Python's `str.strip` / `\s`. -/
def wsB (c : Char) : Bool := c.isWhitespace

/-- `str.strip()` on the character list: drop whitespace from both ends. -/
def trimL (l : List Char) : List Char :=
  ((l.dropWhile wsB).reverse.dropWhile wsB).reverse

/-- Python `s.strip()`. -/
def strTrim (s : String) : String := ⟨trimL s.data⟩

/-- Python `str.lower()` on one character (ASCII range). -/
def charLower (c : Char) : Char :=
  if 65 ≤ c.toNat ∧ c.toNat ≤ 90 then Char.ofNat (c.toNat + 32) else c

/-- Python `s.lower()`. -/
def strLower (s : String) : String := ⟨s.data.map charLower⟩

/-- Python string `<`: lexicographic comparison of code points
(a strict prefix is smaller). -/
def charListLt : List Char → List Char → Bool
  | [], [] => false
  | [], _ :: _ => true
  | _ :: _, [] => false
  | a :: as, b :: bs =>
    if a.toNat < b.toNat then true
    else if b.toNat < a.toNat then false
    else charListLt as bs

/-- Python `s < t` on strings. -/
def strLtB (s t : String) : Bool := charListLt s.data t.data

/-- Python tuple comparison `(s₁, i₁) < (s₂, i₂)` (lexicographic). -/
def pairLtB (x y : String × Int) : Bool :=
  strLtB x.1 y.1 || (decide (x.1 = y.1) && decide (x.2 < y.2))

/-- Split on every character satisfying `p`, keeping empty pieces
(the underlying splitter; `[]` yields `[[]]`, like Python's semantics of
splitting the empty string). -/
def splitOnPL (p : Char → Bool) : List Char → List (List Char)
  | [] => [[]]
  | c :: rest =>
    if p c then [] :: splitOnPL p rest
    else
      match splitOnPL p rest with
      | [] => [[c]]
      | g :: gs => (c :: g) :: gs

/-- Python `re.split("X+", s)` for a character class `p`, on input that has
already been stripped of leading and trailing whitespace (every call site of
`re.split(r"\s+", ·)` / `re.split(r"\n+", ·)` in the source strips first):
maximal runs of `p`-characters separate the pieces, so no empty piece occurs,
except that the empty input yields `[""]`. -/
def reSplitRuns (p : Char → Bool) (s : String) : List String :=
  if s.data = [] then [""]
  else ((splitOnPL p s.data).filter (fun g => !g.isEmpty)).map (fun g => (⟨g⟩ : String))

/-- The scan of `splitFullL`, written with structural fuel so that the kernel
can evaluate it; the wrapper passes `l.length + 1` fuel, which is enough
because every step consumes at least one character of a non-empty separator. -/
def splitFullGo (sep : List Char) : Nat → List Char → List (List Char)
  | _, [] => [[]]
  | 0, l => [l]
  | fuel + 1, c :: rest =>
    if sep.isPrefixOf (c :: rest) then
      [] :: splitFullGo sep fuel (List.drop sep.length (c :: rest))
    else
      match splitFullGo sep fuel rest with
      | [] => [[c]]
      | g :: gs => (c :: g) :: gs

/-- Split on every (non-overlapping, leftmost) occurrence of the literal
separator `sep`, keeping empty pieces — Python `re.split` for a pattern with
no metacharacters.  (Python raises on an empty separator; we return `[l]`,
a branch no call site reaches.) -/
def splitFullL (sep : List Char) (l : List Char) : List (List Char) :=
  if sep.isEmpty then [l]
  else splitFullGo sep (l.length + 1) l

/-- Python `re.split(pattern, s)` for the delimiter patterns the application
uses: the regex `"\n+"` (runs of newlines), and plain literal strings
(`"\n"`, `";"`, `","` — none contain regex metacharacters). -/
def reSplit (pattern : String) (s : String) : List String :=
  if pattern = "\n+" then reSplitRuns (fun c => c == '\n') s
  else (splitFullL pattern.data s.data).map (fun g => (⟨g⟩ : String))

/-- Helper for `splitFirstStr`: scan for the first occurrence of `sep`. -/
def splitFirstAux (sep : List Char) (acc : List Char) :
    List Char → List Char × Option (List Char)
  | [] => (acc.reverse, none)
  | c :: rest =>
    if sep.isPrefixOf (c :: rest) then
      (acc.reverse, some (List.drop sep.length (c :: rest)))
    else splitFirstAux sep (c :: acc) rest

/-- Python `s.split(sep, 1)`: split at the first occurrence of `sep` only.
The Python call returns a list of length 1 (no occurrence) or 2; we return
the part before the first occurrence and, optionally, the part after it.
(Python raises on an empty separator; no call site passes one.) -/
def splitFirstStr (sep s : String) : String × Option String :=
  match splitFirstAux sep.data [] s.data with
  | (t, some d) => (⟨t⟩, some ⟨d⟩)
  | (t, none) => (⟨t⟩, none)

/-- Python `s.replace(":", ";")`. -/
def strReplaceColon (s : String) : String :=
  ⟨s.data.map (fun c => if c == ':' then ';' else c)⟩

/-- Python substring test `n in h` (used after lowercasing both sides):
`isPrefixB n h` is `h.startswith(n)`. -/
def isPrefixB : List Char → List Char → Bool
  | [], _ => true
  | _ :: _, [] => false
  | a :: as, b :: bs => a == b && isPrefixB as bs

/-- Python substring test `n in h`: `n` occurs contiguously in `h`. -/
def isInfixB (n : List Char) : List Char → Bool
  | [] => isPrefixB n []
  | h@(_ :: rest) => isPrefixB n h || isInfixB n rest

/-- `keyword.lower() in hay.lower()` (the search test of `DisplayList.search`). -/
def containsSub (needle hay : String) : Bool :=
  isInfixB (strLower needle).data (strLower hay).data

/-! ## Data model: `Entry` and the persisted table -/

/-- One row of the SQLite table `master`
(`uid integer primary key autoincrement, term, definition, tags, createdAt`). -/
structure Row where
  uid : Int
  term : String
  definition : String
  tags : String
  createdAt : String
deriving DecidableEq

/-- `classes/entry.py` — the `Entry` object.  The Python `uid` is `None` for
entries not yet persisted and an integer for rows read from the database; the
database insert ignores the in-memory `uid`, so staged entries model it as `0`. -/
structure Entry where
  uid : Int
  term : String
  definition : String
  tags : String
  createdAt : String
deriving DecidableEq

/-- `Entry.__init__(term, definition, tags)` with the creation timestamp
(`datetime.now()` in Python) passed explicitly as `now`: each text field is
truncated to its character cap (`TERM_MAX_CHAR = 500`,
`DEFINITION_MAX_CHAR = 5000`, `TAGS_MAX_CHAR = 1000`). -/
def mkEntry (term definition tags now : String) : Entry :=
  { uid := 0
    term := ⟨term.data.take 500⟩
    definition := ⟨definition.data.take 5000⟩
    tags := ⟨tags.data.take 1000⟩
    createdAt := now }

/-- Reading a row of `master` into an `Entry`
(`Entry(uid=row[0], term=row[1], definition=row[2], tags=row[3], createdAt=row[4])`;
row values are within the caps, so no truncation occurs on read). -/
def rowToEntry (r : Row) : Entry :=
  { uid := r.uid, term := r.term, definition := r.definition
    tags := r.tags, createdAt := r.createdAt }

/-- SQLite autoincrement: the next fresh `uid`. -/
def nextUid (db : List Row) : Int := (db.map Row.uid).foldr max 0 + 1

/-- `Entry.add()`:
`INSERT INTO master (term, definition, tags, createdAt) VALUES (?, ?, ?, ?)`
with `(self.term, self.definition, self.tags.strip(), self.createdAt)`. -/
def Entry.add (e : Entry) (db : List Row) : List Row :=
  db ++ [{ uid := nextUid db, term := e.term, definition := e.definition
           tags := strTrim e.tags, createdAt := e.createdAt }]

/-! ## `Helper.quickSort` (`classes/helper.py`) -/

/-- The per-element test that sends `entry` to the `lesser` partition in
`Helper.quickSort`'s loop, for each supported `attribute`
(Python `elif` chain; an unrecognised attribute appends to neither list). -/
def goesLesser (attr : String) (entry pivot : Entry) : Bool :=
  match attr with
  | "alphabeticalAscending" => strLtB (strLower entry.term) (strLower pivot.term)
  | "alphabeticalDescending" => strLtB (strLower pivot.term) (strLower entry.term)
  | "dateAscending" => pairLtB (entry.createdAt, entry.uid) (pivot.createdAt, pivot.uid)
  | "dateDescending" => pairLtB (pivot.createdAt, pivot.uid) (entry.createdAt, entry.uid)
  | _ => false

/-- The complementary test that sends `entry` to the `greater` partition
(the `else` branch of each comparator; again an unrecognised attribute
appends to neither list). -/
def goesGreater (attr : String) (entry pivot : Entry) : Bool :=
  match attr with
  | "alphabeticalAscending" => !strLtB (strLower entry.term) (strLower pivot.term)
  | "alphabeticalDescending" => !strLtB (strLower pivot.term) (strLower entry.term)
  | "dateAscending" => !pairLtB (entry.createdAt, entry.uid) (pivot.createdAt, pivot.uid)
  | "dateDescending" => !pairLtB (pivot.createdAt, pivot.uid) (entry.createdAt, entry.uid)
  | _ => false

/-- `Helper.quickSort(entries, attribute)`: first element as pivot, partition
the remainder by the comparator for `attribute`, recurse, and return
`sorted(lesser) + [pivot] + sorted(greater)`.  (The Python base case
`len(entries) <= 1` returns the input unchanged; a singleton is equally the
result of the `pivot` case with two empty partitions.) -/
def Helper.quickSort (entries : List Entry) (attr : String) : List Entry :=
  match entries with
  | [] => []
  | pivot :: rest =>
    Helper.quickSort (rest.filter fun entry => goesLesser attr entry pivot) attr
      ++ pivot :: Helper.quickSort (rest.filter fun entry => goesGreater attr entry pivot) attr
termination_by entries.length
decreasing_by
  · have := List.length_filter_le (fun entry => goesLesser attr entry pivot) rest
    simp only [List.length_cons]
    omega
  · have := List.length_filter_le (fun entry => goesGreater attr entry pivot) rest
    simp only [List.length_cons]
    omega

/-! ## `DisplayList` (`classes/display_list.py`) -/

/-- The `DisplayList` object.  The Python `filterTags` is either a string of
whitespace-separated tags or `None` (the "no tags" sentinel), hence
`Option String`. -/
structure DisplayList where
  entries : List Entry
  filterTags : Option String
  requireAllTags : Bool
  searchKeyword : String
  sortAttribute : String
deriving DecidableEq

/-- `DisplayList.filter()`: clear `entries`, fetch every row of `master`
(`rows`), then repopulate according to `filterTags` / `requireAllTags`.
Each Python `for row in rows: if cond: self.entries.append(Entry(...))` loop
is the corresponding `filter`-then-`map`. -/
def DisplayList.filter (rows : List Row) (dl : DisplayList) : DisplayList :=
  match dl.filterTags with
  | none =>
    { dl with entries := (rows.filter fun row => strTrim row.tags == "").map rowToEntry }
  | some ftStr =>
    let filterTags := (reSplitRuns wsB (strTrim ftStr)).filter (fun tag => tag != "")
    if filterTags = [] then
      { dl with entries := rows.map rowToEntry }
    else if dl.requireAllTags then
      { dl with entries := (rows.filter fun row =>
          filterTags.all fun tag =>
            ((reSplitRuns wsB (strTrim row.tags)).map strLower).contains (strLower tag)).map rowToEntry }
    else
      { dl with entries := (rows.filter fun row =>
          filterTags.any fun tag =>
            ((reSplitRuns wsB (strTrim row.tags)).map strLower).contains (strLower tag)).map rowToEntry }

/-- `DisplayList.search()`: no-op on an empty keyword, otherwise keep only the
entries whose lowercased term, definition or tag string contains the
lowercased keyword. -/
def DisplayList.search (dl : DisplayList) : DisplayList :=
  if dl.searchKeyword = "" then dl
  else
    { dl with entries := dl.entries.filter fun entry =>
        containsSub dl.searchKeyword entry.term
        || containsSub dl.searchKeyword entry.definition
        || containsSub dl.searchKeyword entry.tags }

/-- `DisplayList.sort()`: `self.entries = Helper.quickSort(self.entries, self.sortAttribute)`. -/
def DisplayList.sort (dl : DisplayList) : DisplayList :=
  { dl with entries := Helper.quickSort dl.entries dl.sortAttribute }

/-- `DisplayList.build()`: `filter()`, then `search()`, then `sort()`. -/
def DisplayList.build (rows : List Row) (dl : DisplayList) : DisplayList :=
  (((dl.filter rows).search).sort)

/-! ## `ImportList` (`classes/import_list.py`) -/

/-- The `ImportList` object. -/
structure ImportList where
  filePath : String
  rawText : String
  entryDelimiter : String
  termDefinitionDelimiter : String
  massTags : String
  parsedEntries : List Entry
deriving DecidableEq

/-- `ImportList.__init__`'s default arguments
(`filePath=""`, `rawText=""`, `entryDelimiter="\n"`,
`termDefinitionDelimiter=":"`, `massTags=""`, `parsedEntries=[]`). -/
def defaultImportList : ImportList :=
  { filePath := "", rawText := "", entryDelimiter := "\n"
    termDefinitionDelimiter := ":", massTags := "", parsedEntries := [] }

/-- The definition obtained from the external lookup in `parseText`: a found
definition has its colons replaced by semicolons
(`definition.replace(":", ";")`); "not found" (or a raised exception) becomes
the empty string. -/
def lookupDef (lookup : String → Option String) (term : String) : String :=
  match lookup term with
  | some d => strReplaceColon d
  | none => ""

/-- The body of `parseText`'s loop for one raw chunk: strip it, split at most
once on the term/definition delimiter; two parts give term and definition
(looking the definition up when it is empty after trimming), a lone part is a
bare term whose definition is looked up. -/
def parseChunk (lookup : String → Option String) (tdDelim : String)
    (rawEntry : String) : String × String :=
  match splitFirstStr tdDelim (strTrim rawEntry) with
  | (t, some d) =>
    let term := strTrim t
    let definition := strTrim d
    if definition = "" then (term, lookupDef lookup term) else (term, definition)
  | (t, none) =>
    let term := strTrim t
    (term, lookupDef lookup term)

/-- `parseText`'s loop over the raw chunks: collect one `(term, definition)`
tuple per chunk and lower the success flag whenever a tuple still has an
empty term or definition. -/
def parseTextGo (lookup : String → Option String) (tdDelim : String) :
    List String → Bool × List (String × String)
  | [] => (true, [])
  | rawEntry :: rest =>
    let td := parseChunk lookup tdDelim rawEntry
    let r := parseTextGo lookup tdDelim rest
    ((!(td.1 = "" || td.2 = "")) && r.1, td :: r.2)

/-- `ImportList.parseText()`: split the stripped raw text on the entry
delimiter and run the loop.  Returns `(successfulParse, trialParsedEntries)`. -/
def ImportList.parseText (lookup : String → Option String) (il : ImportList) :
    Bool × List (String × String) :=
  parseTextGo lookup il.termDefinitionDelimiter
    (reSplit il.entryDelimiter (strTrim il.rawText))

/-- `validateEntries`' loop: each line is stripped and split at most once on
`':'`; a line without a colon, or with an empty trimmed term or definition,
fails the whole batch (`self.parsedEntries.clear(); return False`).  The
Python loop appends eagerly and clears on failure; observably the final
staged list is the fully mapped list on success and `[]` on failure, which is
what this recursion returns. -/
def validateGo (massTags now : String) : List String → Bool × List Entry
  | [] => (true, [])
  | line :: rest =>
    match splitFirstStr ":" (strTrim line) with
    | (t, some d) =>
      let term := strTrim t
      let definition := strTrim d
      if term = "" || definition = "" then (false, [])
      else
        let r := validateGo massTags now rest
        if r.1 then (true, mkEntry term definition massTags now :: r.2)
        else (false, [])
    | (_, none) => (false, [])

/-- `ImportList.validateEntries()` (with the staging timestamp `now` passed
explicitly): split the stripped raw text on `r"\n+"` and validate every line.
Returns the Python method's boolean result together with the final contents
of `self.parsedEntries`. -/
def ImportList.validateEntries (now : String) (il : ImportList) : Bool × List Entry :=
  validateGo il.massTags now (reSplitRuns (fun c => c == '\n') (strTrim il.rawText))

/-- `ImportList.importAndClear()`: record the staged count, `add()` each
staged entry to the database in order, clear `rawText` and `parsedEntries`
(keeping the delimiters and `massTags`), and return the count.  The result is
`(returned count, updated ImportList, updated table)`. -/
def ImportList.importAndClear (il : ImportList) (db : List Row) :
    Nat × ImportList × List Row :=
  let count := il.parsedEntries.length
  let db' := il.parsedEntries.foldl (fun d e => e.add d) db
  (count, { il with rawText := "", parsedEntries := [] }, db')

/-! ## A strict-weak-order toolkit for relating `quickSort` to a stable sort -/

/-- A boolean strict weak order: the shape shared by all four of
`quickSort`'s comparators (each compares a key drawn from a linear order). -/
structure SWO {α : Type} (lt : α → α → Bool) : Prop where
  asymm : ∀ a b, lt a b = true → lt b a = false
  negtrans : ∀ a b c, lt a b = false → lt b c = false → lt a c = false

/-- The non-strict companion of `lt`: `a` may come no later than `b`.
For a key-based `lt` this is exactly "key of `a` ≤ key of `b`". -/
def leB {α : Type} (lt : α → α → Bool) (a b : α) : Prop := lt b a = false

instance {α : Type} (lt : α → α → Bool) : DecidableRel (leB lt) :=
  fun a b => instDecidableEqBool (lt b a) false

theorem leB_total {α : Type} {lt : α → α → Bool} (h : SWO lt) :
    ∀ a b, leB lt a b ∨ leB lt b a := by
  intro a b
  cases hab : lt a b
  · exact Or.inr hab
  · exact Or.inl (h.asymm a b hab)

theorem leB_trans {α : Type} {lt : α → α → Bool} (h : SWO lt) :
    ∀ a b c, leB lt a b → leB lt b c → leB lt a c :=
  fun a b c hab hbc => h.negtrans c b a hbc hab

/-- The generic form of `Helper.quickSort`'s recursion, for an arbitrary
boolean comparator: partition the tail into the strict `lesser` side and the
complementary `greater` side, recurse, concatenate around the pivot. -/
def qsortBy {α : Type} (lt : α → α → Bool) : List α → List α
  | [] => []
  | p :: rest =>
    qsortBy lt (rest.filter fun e => lt e p) ++ p :: qsortBy lt (rest.filter fun e => !lt e p)
termination_by l => l.length
decreasing_by
  · have := List.length_filter_le (fun e => lt e p) rest
    simp only [List.length_cons]
    omega
  · have := List.length_filter_le (fun e => !lt e p) rest
    simp only [List.length_cons]
    omega

theorem orderedInsert_of_forall_le {α : Type} {lt : α → α → Bool} {x : α} :
    ∀ {m : List α}, (∀ z ∈ m, leB lt x z) → List.orderedInsert (leB lt) x m = x :: m
  | [], _ => by simp
  | z :: zs, hm => by
    have hz : leB lt x z := hm z (List.mem_cons_self z zs)
    simp [List.orderedInsert, hz]

theorem filter_orderedInsert {α : Type} {lt : α → α → Bool} (h : SWO lt) (q : α → Bool) (x : α) :
    ∀ s : List α, List.Sorted (leB lt) s →
      (List.orderedInsert (leB lt) x s).filter q =
        if q x then List.orderedInsert (leB lt) x (s.filter q) else s.filter q
  | [], _ => by
    cases hqx : q x <;> simp [List.orderedInsert, hqx]
  | y :: ys, hs => by
    by_cases hr : leB lt x y
    · rw [List.orderedInsert_of_le _ _ hr]
      cases hqx : q x
      · simp [List.filter_cons, hqx]
      · have hall : ∀ z ∈ (y :: ys).filter q, leB lt x z := by
          intro z hz
          have hz' := (List.mem_filter.mp hz).1
          rcases List.mem_cons.mp hz' with rfl | hz2
          · exact hr
          · exact leB_trans h x y z hr (List.rel_of_sorted_cons hs z hz2)
        rw [orderedInsert_of_forall_le hall]
        simp [List.filter_cons, hqx]
    · have hr' : lt y x = true := by
        simpa [leB] using hr
      have hoi : List.orderedInsert (leB lt) x (y :: ys) =
          y :: List.orderedInsert (leB lt) x ys := by
        simp [List.orderedInsert, leB, hr']
      have ih := filter_orderedInsert h q x ys hs.of_cons
      cases hqy : q y <;> cases hqx : q x <;>
        simp [hoi, List.filter_cons, hqy, hqx, ih, List.orderedInsert, leB, hr']

theorem filter_insertionSort {α : Type} {lt : α → α → Bool} (h : SWO lt) (q : α → Bool) :
    ∀ l : List α, (List.insertionSort (leB lt) l).filter q = List.insertionSort (leB lt) (l.filter q)
  | [] => by simp
  | a :: l => by
    haveI : IsTotal α (leB lt) := ⟨leB_total h⟩
    haveI : IsTrans α (leB lt) := ⟨leB_trans h⟩
    have hsorted := List.sorted_insertionSort (leB lt) l
    have ih := filter_insertionSort h q l
    rw [List.insertionSort, filter_orderedInsert h q a _ hsorted, List.filter_cons]
    cases hqa : q a <;> simp [List.insertionSort, ih]

theorem orderedInsert_eq_filter_append {α : Type} {lt : α → α → Bool} (h : SWO lt) (x : α) :
    ∀ s : List α, List.Sorted (leB lt) s →
      List.orderedInsert (leB lt) x s
        = (s.filter fun e => lt e x) ++ x :: (s.filter fun e => !lt e x)
  | [], _ => by simp
  | y :: ys, hs => by
    by_cases hr : leB lt x y
    · rw [List.orderedInsert_of_le _ _ hr]
      have h1 : (y :: ys).filter (fun e => lt e x) = [] := by
        rw [List.filter_eq_nil_iff]
        intro a ha
        rcases List.mem_cons.mp ha with rfl | ha2
        · simp [show lt a x = false from hr]
        · have hy : lt a y = false := List.rel_of_sorted_cons hs a ha2
          simp [h.negtrans a y x hy hr]
      have h2 : (y :: ys).filter (fun e => !lt e x) = y :: ys := by
        rw [List.filter_eq_self]
        intro a ha
        rcases List.mem_cons.mp ha with rfl | ha2
        · simp [show lt a x = false from hr]
        · have hy : lt a y = false := List.rel_of_sorted_cons hs a ha2
          simp [h.negtrans a y x hy hr]
      rw [h1, h2]
      rfl
    · have hr' : lt y x = true := by
        simpa [leB] using hr
      have ih := orderedInsert_eq_filter_append h x ys hs.of_cons
      simp [List.orderedInsert, leB, hr', List.filter_cons, ih]

theorem qsortBy_eq_insertionSort {α : Type} {lt : α → α → Bool} (h : SWO lt) :
    ∀ l : List α, qsortBy lt l = List.insertionSort (leB lt) l
  | [] => by simp [qsortBy]
  | p :: rest => by
    haveI : IsTotal α (leB lt) := ⟨leB_total h⟩
    haveI : IsTrans α (leB lt) := ⟨leB_trans h⟩
    have hsorted := List.sorted_insertionSort (leB lt) rest
    have e1 := qsortBy_eq_insertionSort h (rest.filter fun e => lt e p)
    have e2 := qsortBy_eq_insertionSort h (rest.filter fun e => !lt e p)
    rw [List.insertionSort, orderedInsert_eq_filter_append h p _ hsorted,
      filter_insertionSort h _ rest, filter_insertionSort h _ rest]
    simp [qsortBy, e1, e2]
termination_by l => l.length
decreasing_by
  · simp only [List.length_cons]
    exact Nat.lt_succ_of_le (List.length_filter_le _ _)
  · simp only [List.length_cons]
    exact Nat.lt_succ_of_le (List.length_filter_le _ _)

/-! ## The four comparators are strict weak orders -/

theorem charToNat_inj {a b : Char} (h : a.toNat = b.toNat) : a = b := by
  rw [← Char.ofNat_toNat a, h, Char.ofNat_toNat]

theorem charListLt_nil_right : ∀ y : List Char, charListLt y [] = false
  | [] => rfl
  | _ :: _ => rfl

theorem charListLt_trans :
    ∀ x y z : List Char, charListLt x y = true → charListLt y z = true →
      charListLt x z = true := by
  intro x
  induction x with
  | nil =>
    intro y z _ hyz
    cases z with
    | nil => rw [charListLt_nil_right y] at hyz; cases hyz
    | cons c cs => rfl
  | cons a as ih =>
    intro y z hxy hyz
    cases y with
    | nil => simp [charListLt] at hxy
    | cons b bs =>
      cases z with
      | nil => rw [charListLt_nil_right] at hyz; cases hyz
      | cons c cs =>
        simp only [charListLt] at hxy hyz ⊢
        split_ifs at hxy hyz ⊢ <;> first
          | rfl
          | omega
          | (exact ih bs cs hxy hyz)

theorem charListLt_asymm :
    ∀ x y : List Char, charListLt x y = true → charListLt y x = false := by
  intro x
  induction x with
  | nil =>
    intro y _
    exact charListLt_nil_right y
  | cons a as ih =>
    intro y hxy
    cases y with
    | nil => simp [charListLt] at hxy
    | cons b bs =>
      simp only [charListLt] at hxy ⊢
      split_ifs at hxy ⊢ <;> first
        | rfl
        | omega
        | (exact ih bs hxy)

theorem charListLt_conn :
    ∀ x y : List Char, charListLt x y = false → charListLt y x = false → x = y := by
  intro x
  induction x with
  | nil =>
    intro y hxy _
    cases y with
    | nil => rfl
    | cons b bs => simp [charListLt] at hxy
  | cons a as ih =>
    intro y hxy hyx
    cases y with
    | nil => simp [charListLt] at hyx
    | cons b bs =>
      simp only [charListLt] at hxy hyx
      split_ifs at hxy hyx
      rename_i h1 h2
      have hab : a = b := charToNat_inj (by omega)
      rw [hab, ih bs hxy hyx]

/-- `pairLtB` is the strict lexicographic order on `(createdAt, uid)` pairs:
a characterisation in `Prop`. -/
theorem pairLtB_iff (x y : String × Int) :
    pairLtB x y = true ↔
      charListLt x.1.data y.1.data = true ∨ (x.1 = y.1 ∧ x.2 < y.2) := by
  simp [pairLtB, strLtB, Bool.or_eq_true, Bool.and_eq_true, decide_eq_true_iff]

theorem pairLtB_trans {x y z : String × Int}
    (hxy : pairLtB x y = true) (hyz : pairLtB y z = true) : pairLtB x z = true := by
  rw [pairLtB_iff] at hxy hyz ⊢
  rcases hxy with h1 | ⟨e1, l1⟩ <;> rcases hyz with h2 | ⟨e2, l2⟩
  · exact Or.inl (charListLt_trans _ _ _ h1 h2)
  · exact Or.inl (e2 ▸ h1)
  · exact Or.inl (e1 ▸ h2)
  · exact Or.inr ⟨e1.trans e2, l1.trans l2⟩

theorem pairLtB_asymm {x y : String × Int}
    (hxy : pairLtB x y = true) : pairLtB y x = false := by
  cases hyx : pairLtB y x
  · rfl
  · exfalso
    rw [pairLtB_iff] at hxy hyx
    rcases hxy with h1 | ⟨e1, l1⟩ <;> rcases hyx with h2 | ⟨e2, l2⟩
    · have := charListLt_asymm _ _ h1
      rw [this] at h2
      cases h2
    · rw [e2] at h1
      have h3 := charListLt_asymm _ _ h1
      cases h1.symm.trans h3
    · rw [e1] at h2
      have := charListLt_asymm _ _ h2
      simp_all
    · omega

theorem strDataInj {s t : String} (h : s.data = t.data) : s = t := by
  cases s
  cases t
  exact congrArg String.mk h

theorem pairLtB_conn {x y : String × Int}
    (hxy : pairLtB x y = false) (hyx : pairLtB y x = false) : x = y := by
  have hx : ¬ (charListLt x.1.data y.1.data = true ∨ (x.1 = y.1 ∧ x.2 < y.2)) := by
    rw [← pairLtB_iff]
    simp [hxy]
  have hy : ¬ (charListLt y.1.data x.1.data = true ∨ (y.1 = x.1 ∧ y.2 < x.2)) := by
    rw [← pairLtB_iff]
    simp [hyx]
  push_neg at hx hy
  have hdata : x.1.data = y.1.data :=
    charListLt_conn _ _ (by simpa using hx.1) (by simpa using hy.1)
  have hstr : x.1 = y.1 := strDataInj hdata
  have hint : x.2 = y.2 := by
    have h1 := hx.2 hstr
    have h2 := hy.2 hstr.symm
    omega
  exact Prod.ext hstr hint

/-- A comparator of the form "strictly smaller key", for a key map into a
boolean strict total order, is a strict weak order. -/
theorem SWO.ofKey {α K : Type} (ltK : K → K → Bool) (k : α → K)
    (htrans : ∀ x y z, ltK x y = true → ltK y z = true → ltK x z = true)
    (hasymm : ∀ x y, ltK x y = true → ltK y x = false)
    (hconn : ∀ x y, ltK x y = false → ltK y x = false → x = y) :
    SWO (fun a b => ltK (k a) (k b)) := by
  constructor
  · intro a b hab
    exact hasymm _ _ hab
  · intro a b c hab hbc
    cases hac : ltK (k a) (k c)
    · rfl
    · exfalso
      cases hcb : ltK (k c) (k b)
      · have := hconn _ _ hbc hcb
        rw [this] at hab
        rw [hab] at hac
        cases hac
      · have := htrans _ _ _ hac hcb
        rw [this] at hab
        cases hab

/-! ## `Helper.quickSort` as a generic comparator sort -/

/-- The comparator of the alphabetical orders: strictly smaller lowercased term. -/
def ltAlphaB (a b : Entry) : Bool := strLtB (strLower a.term) (strLower b.term)

/-- The comparator of the date orders: strictly smaller `(createdAt, uid)` pair. -/
def ltDateB (a b : Entry) : Bool := pairLtB (a.createdAt, a.uid) (b.createdAt, b.uid)

/-- The mirrored comparator (used by the two descending orders). -/
def flipB {α : Type} (lt : α → α → Bool) (a b : α) : Bool := lt b a

theorem SWO.flip {α : Type} {lt : α → α → Bool} (h : SWO lt) : SWO (flipB lt) :=
  ⟨fun a b hab => h.asymm b a hab, fun a b c hab hbc => h.negtrans c b a hbc hab⟩

theorem swo_ltAlphaB : SWO ltAlphaB := by
  have h := SWO.ofKey charListLt (fun e : Entry => (strLower e.term).data)
    charListLt_trans charListLt_asymm charListLt_conn
  exact h

theorem swo_ltDateB : SWO ltDateB := by
  have h := SWO.ofKey pairLtB (fun e : Entry => (e.createdAt, e.uid))
    (fun _ _ _ h1 h2 => pairLtB_trans h1 h2)
    (fun _ _ h1 => pairLtB_asymm h1)
    (fun _ _ h1 h2 => pairLtB_conn h1 h2)
  exact h

/-- `Helper.quickSort` at any attribute whose lesser/greater tests are given
by a boolean comparator `ltA` is exactly the generic partition sort. -/
theorem quickSort_eq_qsortBy (attr : String) (ltA : Entry → Entry → Bool)
    (h1 : ∀ e p, goesLesser attr e p = ltA e p)
    (h2 : ∀ e p, goesGreater attr e p = !ltA e p) :
    ∀ l, Helper.quickSort l attr = qsortBy ltA l
  | [] => by simp [Helper.quickSort, qsortBy]
  | p :: rest => by
    have f1 : (rest.filter fun e => goesLesser attr e p) = rest.filter fun e => ltA e p :=
      List.filter_congr (fun e _ => h1 e p)
    have f2 : (rest.filter fun e => goesGreater attr e p) = rest.filter fun e => !ltA e p :=
      List.filter_congr (fun e _ => h2 e p)
    have i1 := quickSort_eq_qsortBy attr ltA h1 h2 (rest.filter fun e => ltA e p)
    have i2 := quickSort_eq_qsortBy attr ltA h1 h2 (rest.filter fun e => !ltA e p)
    simp only [Helper.quickSort, qsortBy]
    rw [f1, f2, i1, i2]
termination_by l => l.length
decreasing_by
  · simp only [List.length_cons]
    exact Nat.lt_succ_of_le (List.length_filter_le _ _)
  · simp only [List.length_cons]
    exact Nat.lt_succ_of_le (List.length_filter_le _ _)

/-- C1.
For every list of `Entry` objects and each of the four supported attribute
values, `Helper.quickSort` returns exactly the permutation produced by a
standard key-based stable sort (`List.insertionSort`, which inserts each
element after all earlier elements whose key is no larger, i.e. the classic
stable sort) on the corresponding key: `leB ltAlphaB a b` says the lowercased
term of `a` is ≤ that of `b` (the descending order uses the mirrored
comparator `flipB ltAlphaB`), and `leB ltDateB a b` says the lexicographic
pair `(createdAt, uid)` of `a` is ≤ that of `b` (mirrored for descending). -/
theorem c1_quickSort_is_stable_key_sort (l : List Entry) :
    Helper.quickSort l "alphabeticalAscending" = List.insertionSort (leB ltAlphaB) l
    ∧ Helper.quickSort l "alphabeticalDescending" = List.insertionSort (leB (flipB ltAlphaB)) l
    ∧ Helper.quickSort l "dateAscending" = List.insertionSort (leB ltDateB) l
    ∧ Helper.quickSort l "dateDescending" = List.insertionSort (leB (flipB ltDateB)) l := by
  refine ⟨?_, ?_, ?_, ?_⟩
  · exact (quickSort_eq_qsortBy "alphabeticalAscending" ltAlphaB
      (fun e p => rfl) (fun e p => rfl) l).trans (qsortBy_eq_insertionSort swo_ltAlphaB l)
  · exact (quickSort_eq_qsortBy "alphabeticalDescending" (flipB ltAlphaB)
      (fun e p => rfl) (fun e p => rfl) l).trans (qsortBy_eq_insertionSort swo_ltAlphaB.flip l)
  · exact (quickSort_eq_qsortBy "dateAscending" ltDateB
      (fun e p => rfl) (fun e p => rfl) l).trans (qsortBy_eq_insertionSort swo_ltDateB l)
  · exact (quickSort_eq_qsortBy "dateDescending" (flipB ltDateB)
      (fun e p => rfl) (fun e p => rfl) l).trans (qsortBy_eq_insertionSort swo_ltDateB.flip l)

/-- An attribute other than the four supported ones sends no element to
either partition. -/
theorem goesLesser_unknown {attr : String}
    (h1 : attr ≠ "alphabeticalAscending") (h2 : attr ≠ "alphabeticalDescending")
    (h3 : attr ≠ "dateAscending") (h4 : attr ≠ "dateDescending") (e p : Entry) :
    goesLesser attr e p = false := by
  unfold goesLesser
  split <;> simp_all

theorem goesGreater_unknown {attr : String}
    (h1 : attr ≠ "alphabeticalAscending") (h2 : attr ≠ "alphabeticalDescending")
    (h3 : attr ≠ "dateAscending") (h4 : attr ≠ "dateDescending") (e p : Entry) :
    goesGreater attr e p = false := by
  unfold goesGreater
  split <;> simp_all

/-- C10.
For every entries list of length at least 2 (`a :: b :: rest`) and every
attribute string outside the four supported orderings, `Helper.quickSort`
returns the one-element list containing only the first element of the input
(everything else is silently discarded, no error is raised), and consequently
`DisplayList.sort` with such an unrecognized `sortAttribute` shrinks the
non-empty view to that single entry. -/
theorem c10_unknown_attribute_discards_all_but_first
    (a b : Entry) (rest : List Entry) (attr : String)
    (h1 : attr ≠ "alphabeticalAscending") (h2 : attr ≠ "alphabeticalDescending")
    (h3 : attr ≠ "dateAscending") (h4 : attr ≠ "dateDescending") :
    Helper.quickSort (a :: b :: rest) attr = [a]
    ∧ ∀ dl : DisplayList, dl.entries = a :: b :: rest → dl.sortAttribute = attr →
        (DisplayList.sort dl).entries = [a] := by
  have hmain : Helper.quickSort (a :: b :: rest) attr = [a] := by
    have f1 : (b :: rest).filter (fun e => goesLesser attr e a) = [] := by
      rw [List.filter_eq_nil_iff]
      intro x _
      simp [goesLesser_unknown h1 h2 h3 h4]
    have f2 : (b :: rest).filter (fun e => goesGreater attr e a) = [] := by
      rw [List.filter_eq_nil_iff]
      intro x _
      simp [goesGreater_unknown h1 h2 h3 h4]
    simp only [Helper.quickSort, f1, f2]
    simp [Helper.quickSort]
  refine ⟨hmain, fun dl hent hattr => ?_⟩
  simp [DisplayList.sort, hent, hattr, hmain]

/-- Witness for C10: the unrecognized attribute `"foo"` on a two-element list
keeps only the first element. -/
theorem c10_witness :
    ("foo" : String) ≠ "alphabeticalAscending"
    ∧ ("foo" : String) ≠ "alphabeticalDescending"
    ∧ ("foo" : String) ≠ "dateAscending"
    ∧ ("foo" : String) ≠ "dateDescending"
    ∧ Helper.quickSort
        [({ uid := 1, term := "a", definition := "da", tags := "", createdAt := "t1" } : Entry),
         { uid := 2, term := "b", definition := "db", tags := "", createdAt := "t2" }] "foo"
      = [({ uid := 1, term := "a", definition := "da", tags := "", createdAt := "t1" } : Entry)] :=
  ⟨by decide, by decide, by decide, by decide,
    (c10_unknown_attribute_discards_all_but_first
      { uid := 1, term := "a", definition := "da", tags := "", createdAt := "t1" }
      { uid := 2, term := "b", definition := "db", tags := "", createdAt := "t2" }
      [] "foo" (by decide) (by decide) (by decide) (by decide)).1⟩

/-! ## C7: the two date orders -/

/-- The strict "(createdAt, uid) strictly smaller" relation, as a proposition. -/
def dateLt (a b : Entry) : Prop := ltDateB a b = true

theorem quickSort_dateAsc_eq (l : List Entry) :
    Helper.quickSort l "dateAscending" = List.insertionSort (leB ltDateB) l :=
  (quickSort_eq_qsortBy "dateAscending" ltDateB
    (fun _ _ => rfl) (fun _ _ => rfl) l).trans (qsortBy_eq_insertionSort swo_ltDateB l)

theorem quickSort_dateDesc_eq (l : List Entry) :
    Helper.quickSort l "dateDescending" = List.insertionSort (leB (flipB ltDateB)) l :=
  (quickSort_eq_qsortBy "dateDescending" (flipB ltDateB)
    (fun _ _ => rfl) (fun _ _ => rfl) l).trans (qsortBy_eq_insertionSort swo_ltDateB.flip l)

/-- Entries with distinct uids are strictly comparable by `(createdAt, uid)`. -/
theorem dateLt_of_not_gt {a b : Entry} (hne : a.uid ≠ b.uid)
    (hab : ltDateB b a = false) : dateLt a b := by
  cases h : ltDateB a b
  · exfalso
    have := pairLtB_conn h hab
    exact hne (congrArg Prod.snd this)
  · exact h

/-- C7.
For every list of entries with pairwise-distinct uids: whenever no two
entries share a `createdAt` timestamp, the orders produced by
`Helper.quickSort` under `dateAscending` and `dateDescending` are exact
reverses of each other (the proof in fact never needs the timestamp
hypothesis: distinct uids already make the `(createdAt, uid)` keys distinct);
and even when timestamps tie, the pair comparison is a deterministic total
order, so each of the two sorted results is uniquely determined — it is the
only permutation of the input that is strictly sorted by `(createdAt, uid)`
(respectively strictly reverse-sorted). -/
theorem c7_date_orders_reverse_and_unique (l : List Entry)
    (huid : l.Pairwise (fun a b => a.uid ≠ b.uid)) :
    (l.Pairwise (fun a b => a.createdAt ≠ b.createdAt) →
      Helper.quickSort l "dateDescending" = (Helper.quickSort l "dateAscending").reverse)
    ∧ (∀ l₂ : List Entry, l₂.Perm l → l₂.Pairwise dateLt →
        l₂ = Helper.quickSort l "dateAscending")
    ∧ (∀ l₂ : List Entry, l₂.Perm l → l₂.Pairwise (fun a b => dateLt b a) →
        l₂ = Helper.quickSort l "dateDescending") := by
  haveI : IsTotal Entry (leB ltDateB) := ⟨leB_total swo_ltDateB⟩
  haveI : IsTrans Entry (leB ltDateB) := ⟨leB_trans swo_ltDateB⟩
  haveI : IsTotal Entry (leB (flipB ltDateB)) := ⟨leB_total swo_ltDateB.flip⟩
  haveI : IsTrans Entry (leB (flipB ltDateB)) := ⟨leB_trans swo_ltDateB.flip⟩
  haveI : IsAntisymm Entry dateLt := ⟨fun a b h1 h2 => by
    have hfalse := pairLtB_asymm h1
    exact absurd (hfalse.symm.trans h2) Bool.false_ne_true⟩
  haveI : IsAntisymm Entry (fun a b => dateLt b a) := ⟨fun a b h1 h2 => by
    have hfalse := pairLtB_asymm h1
    exact absurd (hfalse.symm.trans h2) Bool.false_ne_true⟩
  have hsymm : ∀ {x y : Entry}, x.uid ≠ y.uid → y.uid ≠ x.uid := fun h => h.symm
  -- the ascending result
  have hA_eq := quickSort_dateAsc_eq l
  have hA_perm : (Helper.quickSort l "dateAscending").Perm l := by
    rw [hA_eq]
    exact List.perm_insertionSort _ l
  have hA_sorted : (Helper.quickSort l "dateAscending").Pairwise (leB ltDateB) := by
    rw [hA_eq]
    exact List.sorted_insertionSort (leB ltDateB) l
  have hA_uid := (hA_perm.pairwise_iff hsymm).mpr huid
  have hA_strict : (Helper.quickSort l "dateAscending").Pairwise dateLt :=
    (hA_sorted.and hA_uid).imp (fun hab => dateLt_of_not_gt hab.2 hab.1)
  -- the descending result
  have hD_eq := quickSort_dateDesc_eq l
  have hD_perm : (Helper.quickSort l "dateDescending").Perm l := by
    rw [hD_eq]
    exact List.perm_insertionSort _ l
  have hD_sorted : (Helper.quickSort l "dateDescending").Pairwise (leB (flipB ltDateB)) := by
    rw [hD_eq]
    exact List.sorted_insertionSort (leB (flipB ltDateB)) l
  have hD_uid := (hD_perm.pairwise_iff hsymm).mpr huid
  have hD_strict : (Helper.quickSort l "dateDescending").Pairwise (fun a b => dateLt b a) :=
    (hD_sorted.and hD_uid).imp (fun hab => dateLt_of_not_gt hab.2.symm hab.1)
  -- uniqueness of the strictly sorted permutations
  have huniqA : ∀ l₂ : List Entry, l₂.Perm l → l₂.Pairwise dateLt →
      l₂ = Helper.quickSort l "dateAscending" := by
    intro l₂ hperm hpair
    exact List.eq_of_perm_of_sorted (hperm.trans hA_perm.symm) hpair hA_strict
  have huniqD : ∀ l₂ : List Entry, l₂.Perm l → l₂.Pairwise (fun a b => dateLt b a) →
      l₂ = Helper.quickSort l "dateDescending" := by
    intro l₂ hperm hpair
    exact List.eq_of_perm_of_sorted (hperm.trans hD_perm.symm) hpair hD_strict
  refine ⟨fun _ => ?_, huniqA, huniqD⟩
  have hrevperm : ((Helper.quickSort l "dateAscending").reverse).Perm l :=
    (List.reverse_perm _).trans hA_perm
  have hrevpair : (Helper.quickSort l "dateAscending").reverse.Pairwise
      (fun a b => dateLt b a) := List.pairwise_reverse.mpr hA_strict
  exact (huniqD _ hrevperm hrevpair).symm

/-- Witness for C7: two entries with distinct uids and distinct timestamps;
the descending order is the reverse of the ascending order. -/
theorem c7_witness :
    ([({ uid := 1, term := "a", definition := "d", tags := "", createdAt := "2024-01-01 00:00:00" } : Entry),
      { uid := 2, term := "b", definition := "d", tags := "", createdAt := "2024-01-02 00:00:00" }].Pairwise
        (fun a b => a.uid ≠ b.uid))
    ∧ ([({ uid := 1, term := "a", definition := "d", tags := "", createdAt := "2024-01-01 00:00:00" } : Entry),
        { uid := 2, term := "b", definition := "d", tags := "", createdAt := "2024-01-02 00:00:00" }].Pairwise
          (fun a b => a.createdAt ≠ b.createdAt))
    ∧ Helper.quickSort
        [({ uid := 1, term := "a", definition := "d", tags := "", createdAt := "2024-01-01 00:00:00" } : Entry),
         { uid := 2, term := "b", definition := "d", tags := "", createdAt := "2024-01-02 00:00:00" }]
        "dateDescending"
      = (Helper.quickSort
          [({ uid := 1, term := "a", definition := "d", tags := "", createdAt := "2024-01-01 00:00:00" } : Entry),
           { uid := 2, term := "b", definition := "d", tags := "", createdAt := "2024-01-02 00:00:00" }]
          "dateAscending").reverse :=
  ⟨by decide, by decide,
    (c7_date_orders_reverse_and_unique _ (by decide)).1 (by decide)⟩

/-! ## C2, C6, C8: the filter/search/sort pipeline -/

/-- The tag-filter condition of `DisplayList.filter`, as a pointwise predicate
on one record's tag string: the "no tags" sentinel keeps blank-tag records;
an empty tag-token list keeps everything; otherwise all (resp. any) of the
wanted tags must occur among the record's lowercased tag tokens. -/
def tagKeepB (filterTags : Option String) (requireAllTags : Bool) (tags : String) : Bool :=
  match filterTags with
  | none => strTrim tags == ""
  | some ftStr =>
    let fts := (reSplitRuns wsB (strTrim ftStr)).filter (fun tag => tag != "")
    if fts = [] then true
    else if requireAllTags then
      fts.all fun tag => ((reSplitRuns wsB (strTrim tags)).map strLower).contains (strLower tag)
    else
      fts.any fun tag => ((reSplitRuns wsB (strTrim tags)).map strLower).contains (strLower tag)

/-- The search condition of `DisplayList.search`, as a pointwise predicate:
an empty keyword keeps everything, otherwise the lowercased keyword must be a
substring of the lowercased term, definition or tag string. -/
def searchKeepB (kw : String) (e : Entry) : Bool :=
  if kw = "" then true
  else containsSub kw e.term || containsSub kw e.definition || containsSub kw e.tags

theorem searchKeepB_empty : searchKeepB "" = fun _ : Entry => true := by
  funext e
  simp [searchKeepB]

theorem searchKeepB_ne {kw : String} (h : kw ≠ "") (e : Entry) :
    searchKeepB kw e
      = (containsSub kw e.term || containsSub kw e.definition || containsSub kw e.tags) := by
  simp [searchKeepB, h]

theorem displayList_filter_entries (rows : List Row) (dl : DisplayList) :
    (DisplayList.filter rows dl).entries
      = (rows.map rowToEntry).filter
          (fun e => tagKeepB dl.filterTags dl.requireAllTags e.tags) := by
  cases hft : dl.filterTags with
  | none =>
    simp only [DisplayList.filter, hft, tagKeepB]
    rw [List.filter_map]
    rfl
  | some ftStr =>
    by_cases hfts : (reSplitRuns wsB (strTrim ftStr)).filter (fun tag => tag != "") = []
    · have hp : ∀ e : Entry, tagKeepB (some ftStr) dl.requireAllTags e.tags = true := by
        intro e
        simp [tagKeepB, hfts]
      rw [List.filter_congr (fun e _ => hp e), List.filter_true]
      simp [DisplayList.filter, hft, hfts]
    · cases hreq : dl.requireAllTags
      · have hp : ∀ e : Entry, tagKeepB (some ftStr) false e.tags
            = ((reSplitRuns wsB (strTrim ftStr)).filter (fun tag => tag != "")).any
                (fun tag => ((reSplitRuns wsB (strTrim e.tags)).map strLower).contains
                  (strLower tag)) := by
          intro e
          simp [tagKeepB, hfts]
        rw [List.filter_congr (fun e _ => hp e)]
        simp only [DisplayList.filter, hft, hreq, if_neg hfts, if_neg Bool.false_ne_true]
        rw [List.filter_map]
        rfl
      · have hp : ∀ e : Entry, tagKeepB (some ftStr) true e.tags
            = ((reSplitRuns wsB (strTrim ftStr)).filter (fun tag => tag != "")).all
                (fun tag => ((reSplitRuns wsB (strTrim e.tags)).map strLower).contains
                  (strLower tag)) := by
          intro e
          simp [tagKeepB, hfts]
        rw [List.filter_congr (fun e _ => hp e)]
        simp only [DisplayList.filter, hft, hreq, if_neg hfts, if_pos rfl]
        rw [List.filter_map]
        rfl

theorem displayList_filter_fields (rows : List Row) (dl : DisplayList) :
    (DisplayList.filter rows dl).filterTags = dl.filterTags
    ∧ (DisplayList.filter rows dl).requireAllTags = dl.requireAllTags
    ∧ (DisplayList.filter rows dl).searchKeyword = dl.searchKeyword
    ∧ (DisplayList.filter rows dl).sortAttribute = dl.sortAttribute := by
  cases hft : dl.filterTags
  · simp [DisplayList.filter, hft]
  · simp only [DisplayList.filter, hft]
    split_ifs <;> simp

theorem displayList_search_entries (dl : DisplayList) :
    (DisplayList.search dl).entries
      = dl.entries.filter (searchKeepB dl.searchKeyword) := by
  by_cases hkw : dl.searchKeyword = ""
  · simp only [DisplayList.search, if_pos hkw]
    rw [hkw, searchKeepB_empty, List.filter_true]
  · simp only [DisplayList.search, if_neg hkw]
    exact List.filter_congr (fun e _ => (searchKeepB_ne hkw e).symm)

theorem displayList_search_fields (dl : DisplayList) :
    (DisplayList.search dl).filterTags = dl.filterTags
    ∧ (DisplayList.search dl).requireAllTags = dl.requireAllTags
    ∧ (DisplayList.search dl).searchKeyword = dl.searchKeyword
    ∧ (DisplayList.search dl).sortAttribute = dl.sortAttribute := by
  unfold DisplayList.search
  split_ifs <;> simp

theorem build_entries_eq (rows : List Row) (dl : DisplayList) :
    (DisplayList.build rows dl).entries
      = Helper.quickSort
          (((rows.map rowToEntry).filter
              (fun e => tagKeepB dl.filterTags dl.requireAllTags e.tags)).filter
            (searchKeepB dl.searchKeyword))
          dl.sortAttribute := by
  show ((((dl.filter rows).search).sort)).entries = _
  rw [show (((dl.filter rows).search).sort).entries
      = Helper.quickSort (((dl.filter rows).search).entries)
          ((((dl.filter rows)).search).sortAttribute) from rfl]
  rw [displayList_search_entries (dl.filter rows)]
  rw [displayList_filter_entries rows dl]
  rw [(displayList_filter_fields rows dl).2.2.1]
  rw [(displayList_search_fields (dl.filter rows)).2.2.2,
    (displayList_filter_fields rows dl).2.2.2]

/-- C2.
For every row set and every `DisplayList` — regardless of the contents of its
`entries` list before the call — after `build()` the `entries` list is
exactly the persisted records that pass the current tag filter
(`tagKeepB`) and, when `searchKeyword` is non-empty, contain the lowercased
keyword as a substring of the lowercased term, definition or tag string
(`searchKeepB`), ordered by `sortAttribute`; `build` runs `filter`, then
`search`, then `sort`, in that order, and the result never depends on the
entries of a prior build. -/
theorem c2_build_is_filter_search_sort (rows : List Row) (dl : DisplayList) :
    ((DisplayList.build rows dl).entries
      = Helper.quickSort
          (((rows.map rowToEntry).filter
              (fun e => tagKeepB dl.filterTags dl.requireAllTags e.tags)).filter
            (searchKeepB dl.searchKeyword))
          dl.sortAttribute)
    ∧ DisplayList.build rows dl = (((dl.filter rows).search).sort)
    ∧ ∀ es : List Entry,
        (DisplayList.build rows { dl with entries := es }).entries
          = (DisplayList.build rows dl).entries := by
  refine ⟨build_entries_eq rows dl, rfl, fun es => ?_⟩
  rw [build_entries_eq rows { dl with entries := es }, build_entries_eq rows dl]

theorem tagKeep_all_imp_any (ftStr tags : String)
    (h : tagKeepB (some ftStr) true tags = true) :
    tagKeepB (some ftStr) false tags = true := by
  by_cases hfts : (reSplitRuns wsB (strTrim ftStr)).filter (fun tag => tag != "") = []
  · simp [tagKeepB, hfts]
  · have h' : ((reSplitRuns wsB (strTrim ftStr)).filter (fun tag => tag != "")).all
        (fun tag => ((reSplitRuns wsB (strTrim tags)).map strLower).contains
          (strLower tag)) = true := by
      simpa [tagKeepB, hfts] using h
    simp only [tagKeepB, if_neg hfts, if_neg Bool.false_ne_true]
    obtain ⟨t, ht⟩ := List.exists_mem_of_ne_nil _ hfts
    rw [List.any_eq_true]
    rw [List.all_eq_true] at h'
    exact ⟨t, ht, h' t ht⟩

/-- C6.
For every persisted record set and every `filterTags` string, the set of
entries produced by `filter()` with `requireAllTags = true` is a subset of
the set produced by `filter()` with `requireAllTags = false` over the same
tag set and the same records. -/
theorem c6_all_tags_subset_of_any_tags
    (rows : List Row) (es : List Entry) (ft kw sa : String) (e : Entry)
    (h : e ∈ (DisplayList.filter rows
      { entries := es, filterTags := some ft, requireAllTags := true,
        searchKeyword := kw, sortAttribute := sa }).entries) :
    e ∈ (DisplayList.filter rows
      { entries := es, filterTags := some ft, requireAllTags := false,
        searchKeyword := kw, sortAttribute := sa }).entries := by
  rw [displayList_filter_entries] at h ⊢
  rw [List.mem_filter] at h ⊢
  exact ⟨h.1, tagKeep_all_imp_any ft e.tags h.2⟩

/-- Witness for C6: a record tagged `"a"` passes the AND filter on `"a"` and
hence also the OR filter. -/
theorem c6_witness :
    (rowToEntry { uid := 1, term := "t", definition := "d", tags := "a", createdAt := "x" }
      ∈ (DisplayList.filter
          [{ uid := 1, term := "t", definition := "d", tags := "a", createdAt := "x" }]
          { entries := [], filterTags := some "a", requireAllTags := true,
            searchKeyword := "", sortAttribute := "dateDescending" }).entries)
    ∧ (rowToEntry { uid := 1, term := "t", definition := "d", tags := "a", createdAt := "x" }
      ∈ (DisplayList.filter
          [{ uid := 1, term := "t", definition := "d", tags := "a", createdAt := "x" }]
          { entries := [], filterTags := some "a", requireAllTags := false,
            searchKeyword := "", sortAttribute := "dateDescending" }).entries) :=
  ⟨by decide,
    c6_all_tags_subset_of_any_tags _ [] "a" "" "dateDescending" _ (by decide)⟩

/-- C8.
When `filterTags` is the "no tags" sentinel (`None`), `filter()` returns
exactly those persisted records whose tag string is empty after trimming
whitespace: no record with a non-blank tag string is included, and no record
with a blank tag string is omitted. -/
theorem c8_no_tags_sentinel_keeps_exactly_blank_tag_records
    (rows : List Row) (es : List Entry) (rt : Bool) (kw sa : String) (e : Entry) :
    e ∈ (DisplayList.filter rows
      { entries := es, filterTags := none, requireAllTags := rt,
        searchKeyword := kw, sortAttribute := sa }).entries
    ↔ ∃ row ∈ rows, strTrim row.tags = "" ∧ e = rowToEntry row := by
  rw [displayList_filter_entries]
  simp only [List.mem_filter, List.mem_map]
  constructor
  · rintro ⟨⟨row, hrow, rfl⟩, hkeep⟩
    refine ⟨row, hrow, ?_, rfl⟩
    simpa [tagKeepB, rowToEntry] using hkeep
  · rintro ⟨row, hrow, htags, rfl⟩
    exact ⟨⟨row, hrow, rfl⟩, by simp [tagKeepB, rowToEntry, htags]⟩

/-! ## C3, C4, C9: the `ImportList` operations -/

/-- One line of `validateEntries` input conforms when, after stripping, it
splits at the first colon into two parts whose trimmed halves are both
non-empty. -/
def conformsB (line : String) : Bool :=
  match splitFirstStr ":" (strTrim line) with
  | (t, some d) => !(decide (strTrim t = "")) && !(decide (strTrim d = ""))
  | (_, none) => false

/-- The `Entry` staged by `validateEntries` for one conforming line. -/
def stageLine (massTags now line : String) : Entry :=
  match splitFirstStr ":" (strTrim line) with
  | (t, some d) => mkEntry (strTrim t) (strTrim d) massTags now
  | (t, none) => mkEntry (strTrim t) "" massTags now

theorem validateGo_eq (massTags now : String) :
    ∀ lines : List String,
      validateGo massTags now lines
        = (lines.all conformsB,
           if lines.all conformsB then lines.map (stageLine massTags now) else []) := by
  intro lines
  induction lines with
  | nil => simp [validateGo]
  | cons line rest ih =>
    cases hsplit : splitFirstStr ":" (strTrim line) with
    | mk t dopt =>
      cases dopt with
      | none =>
        simp [validateGo, conformsB, hsplit]
      | some d =>
        by_cases hterm : strTrim t = ""
        · simp [validateGo, conformsB, hsplit, hterm]
        · by_cases hdef : strTrim d = ""
          · simp [validateGo, conformsB, hsplit, hterm, hdef]
          · cases hall : rest.all conformsB
            · simp [validateGo, conformsB, stageLine, hsplit, hterm, hdef, ih, hall]
            · simp [validateGo, conformsB, stageLine, hsplit, hterm, hdef, ih, hall]

/-- C3.
`validateEntries` splits the raw text on runs of newlines and requires every
line to split on the first colon into two non-empty trimmed parts: if every
line conforms it returns `true` with one staged `Entry` per line, carrying
`massTags` as its tags; if any line fails it returns `false` with the staged
list left empty — never a partially populated staging list.  In particular,
`"cat: feline\nveggie: plant"` stages two entries, and
`"cat: feline\nno-delimiter-line"` yields `false` and an empty staged list. -/
theorem c3_validateEntries_is_all_or_nothing (now : String) (il : ImportList) :
    (ImportList.validateEntries now il
      = ((reSplitRuns (fun c => c == '\n') (strTrim il.rawText)).all conformsB,
         if (reSplitRuns (fun c => c == '\n') (strTrim il.rawText)).all conformsB
         then (reSplitRuns (fun c => c == '\n') (strTrim il.rawText)).map
                (stageLine il.massTags now)
         else []))
    ∧ ImportList.validateEntries now
        { defaultImportList with rawText := "cat: feline\nveggie: plant" }
      = (true, [mkEntry "cat" "feline" "" now, mkEntry "veggie" "plant" "" now])
    ∧ ImportList.validateEntries now
        { defaultImportList with rawText := "cat: feline\nno-delimiter-line" }
      = (false, []) := by
  refine ⟨validateGo_eq il.massTags now _, ?_, ?_⟩ <;> rfl

theorem parseTextGo_snd (lookup : String → Option String) (tdDelim : String) :
    ∀ chunks : List String,
      (parseTextGo lookup tdDelim chunks).2 = chunks.map (parseChunk lookup tdDelim) := by
  intro chunks
  induction chunks with
  | nil => rfl
  | cons c rest ih => simp [parseTextGo, ih]

theorem parseTextGo_fst (lookup : String → Option String) (tdDelim : String) :
    ∀ chunks : List String,
      (parseTextGo lookup tdDelim chunks).1
        = chunks.all fun c =>
            !(decide ((parseChunk lookup tdDelim c).1 = "")
              || decide ((parseChunk lookup tdDelim c).2 = "")) := by
  intro chunks
  induction chunks with
  | nil => rfl
  | cons c rest ih => simp [parseTextGo, ih, Bool.and_comm]

/-- C4.
For every raw text and delimiter configuration (and every behaviour of the
external lookup), `parseText` returns one `(term, definition)` tuple per
chunk of the input — the chunks being the split of the stripped raw text on
the entry delimiter, each chunk processed by `parseChunk`, which splits at
most once on the term/definition delimiter and attempts the lookup when the
definition half is empty or absent — and reports overall success `false` if
and only if at least one returned tuple still has an empty term or empty
definition after the lookup attempt; failing tuples are included in the
returned list alongside successful ones. -/
theorem c4_parseText_per_chunk_and_failure_flag
    (lookup : String → Option String) (il : ImportList) :
    ((ImportList.parseText lookup il).2
      = (reSplit il.entryDelimiter (strTrim il.rawText)).map
          (parseChunk lookup il.termDefinitionDelimiter))
    ∧ ((ImportList.parseText lookup il).1 = false
        ↔ ∃ td ∈ (ImportList.parseText lookup il).2, td.1 = "" ∨ td.2 = "") := by
  constructor
  · exact parseTextGo_snd lookup il.termDefinitionDelimiter _
  · rw [ImportList.parseText, parseTextGo_fst lookup il.termDefinitionDelimiter,
      parseTextGo_snd lookup il.termDefinitionDelimiter]
    rw [List.all_eq_false]
    simp [or_iff_not_imp_left]

theorem foldl_add_length (es : List Entry) :
    ∀ db : List Row, (es.foldl (fun d e => e.add d) db).length = db.length + es.length := by
  induction es with
  | nil => intro db; simp
  | cons e rest ih =>
    intro db
    rw [List.foldl_cons, ih]
    simp [Entry.add]
    omega

/-- C9.
`importAndClear` persists every staged entry with one independent insert per
entry (the database becomes the fold of `Entry.add` over the staged list, one
appended row per staged entry), then clears `rawText` and the staged entry
list while leaving `entryDelimiter`, `termDefinitionDelimiter` and `massTags`
unchanged, and returns the number of entries that were staged before
inserting (the attempted count, not a count of confirmed writes). -/
theorem c9_importAndClear_inserts_counts_and_clears (il : ImportList) (db : List Row) :
    (il.importAndClear db).1 = il.parsedEntries.length
    ∧ (il.importAndClear db).2.2 = il.parsedEntries.foldl (fun d e => e.add d) db
    ∧ ((il.importAndClear db).2.2).length = db.length + il.parsedEntries.length
    ∧ (il.importAndClear db).2.1.rawText = ""
    ∧ (il.importAndClear db).2.1.parsedEntries = []
    ∧ (il.importAndClear db).2.1.entryDelimiter = il.entryDelimiter
    ∧ (il.importAndClear db).2.1.termDefinitionDelimiter = il.termDefinitionDelimiter
    ∧ (il.importAndClear db).2.1.massTags = il.massTags
    ∧ (il.importAndClear db).2.1.filePath = il.filePath :=
  ⟨rfl, rfl, foldl_add_length il.parsedEntries db, rfl, rfl, rfl, rfl, rfl, rfl⟩

/-! ## C5: the entry delimiter and blank-line-separated input -/

theorem splitOnPL_ne_nil (p : Char → Bool) : ∀ l, splitOnPL p l ≠ []
  | [] => by simp [splitOnPL]
  | c :: rest => by
    simp only [splitOnPL]
    by_cases hc : p c
    · simp [hc]
    · simp only [hc]
      cases hs : splitOnPL p rest <;> simp

theorem splitOnPL_append (p : Char → Bool) (xs ys : List Char)
    (hxs : ∀ c ∈ xs, p c = false) :
    splitOnPL p (xs ++ ys) = (splitOnPL p ys).modifyHead (fun g => xs ++ g) := by
  induction xs with
  | nil =>
    cases hs : splitOnPL p ys with
    | nil => exact absurd hs (splitOnPL_ne_nil p ys)
    | cons g gs => simp [List.modifyHead, hs]
  | cons c xs ih =>
    have hc : p c = false := hxs c (List.mem_cons_self c xs)
    have hxs' : ∀ a ∈ xs, p a = false := fun a ha => hxs a (List.mem_cons_of_mem c ha)
    simp only [List.cons_append, splitOnPL, hc, if_neg Bool.false_ne_true, List.append_eq]
    rw [ih hxs']
    cases hs : splitOnPL p ys with
    | nil => exact absurd hs (splitOnPL_ne_nil p ys)
    | cons g gs => simp [List.modifyHead]

theorem splitOnPL_no_sep (p : Char → Bool) (xs : List Char)
    (hxs : ∀ c ∈ xs, p c = false) : splitOnPL p xs = [xs] := by
  have h := splitOnPL_append p xs [] hxs
  simpa [splitOnPL, List.modifyHead] using h

/-- Joining chunks (as character lists) with one blank line (two newlines)
between consecutive chunks. -/
def joinBlankL : List (List Char) → List Char
  | [] => []
  | [s] => s
  | s :: rest => s ++ '\n' :: '\n' :: joinBlankL rest

/-- Joining entries with one blank line between consecutive entries: raw text
"whose entries are separated by blank lines". -/
def joinBlank : List String → String
  | [] => ""
  | [s] => s
  | s :: rest => s ++ "\n\n" ++ joinBlank rest

theorem strAppend_data (s t : String) : (s ++ t).data = s.data ++ t.data := rfl

theorem joinBlank_data : ∀ es : List String, (joinBlank es).data = joinBlankL (es.map String.data)
  | [] => rfl
  | [_] => rfl
  | s :: r :: rs => by
    have ih := joinBlank_data (r :: rs)
    show (s ++ "\n\n" ++ joinBlank (r :: rs)).data = _
    rw [strAppend_data, strAppend_data, ih]
    show (s.data ++ ['\n', '\n']) ++ joinBlankL ((r :: rs).map String.data)
      = s.data ++ '\n' :: '\n' :: joinBlankL ((r :: rs).map String.data)
    simp

theorem filter_splitOnPL_joinBlankL :
    ∀ es : List (List Char), es ≠ [] → (∀ s ∈ es, s ≠ [] ∧ ∀ c ∈ s, c ≠ '\n') →
      (splitOnPL (fun c => c == '\n') (joinBlankL es)).filter (fun g => !g.isEmpty) = es
  | [], h, _ => absurd rfl h
  | [s], _, hc => by
    have hs := hc s (List.mem_singleton_self s)
    rw [show joinBlankL [s] = s from rfl]
    rw [splitOnPL_no_sep _ s (fun c hcs => by simp [hs.2 c hcs])]
    simp [hs.1]
  | s :: r :: rs, _, hc => by
    have hs := hc s (List.mem_cons_self s (r :: rs))
    have hrest : ∀ t ∈ r :: rs, t ≠ [] ∧ ∀ c ∈ t, c ≠ '\n' :=
      fun t ht => hc t (List.mem_cons_of_mem s ht)
    have ih := filter_splitOnPL_joinBlankL (r :: rs) (by simp) hrest
    rw [show joinBlankL (s :: r :: rs) = s ++ '\n' :: '\n' :: joinBlankL (r :: rs) from rfl]
    rw [splitOnPL_append _ s _ (fun c hcs => by simp [hs.2 c hcs])]
    rw [show splitOnPL (fun c => c == '\n') ('\n' :: '\n' :: joinBlankL (r :: rs))
        = [] :: [] :: splitOnPL (fun c => c == '\n') (joinBlankL (r :: rs)) from by
      simp [splitOnPL]]
    simp only [List.modifyHead, List.append_nil]
    rw [List.filter_cons, List.filter_cons]
    simp [hs.1, ih]

/-- Amended C5.
The constructor default entry delimiter is the literal `"\n"`, not the regex
`"\n+"` (see `c5_counterexample`); it is the `"\n+"` pattern — the value the
application's delimiter map assigns for its default "Line Break" option —
whose splitting matches one or more newlines: on raw text formed by joining
entries with blank lines (each entry non-empty, containing no newline, and
the joined text unchanged by stripping), splitting produces exactly one chunk
per entry, with no empty chunks arising from the extra newlines. -/
theorem c5_nplus_delimiter_collapses_blank_lines (es : List String) (hne : es ≠ [])
    (hclean : ∀ s ∈ es, s ≠ "" ∧ ∀ c ∈ s.data, c ≠ '\n')
    (htrim : strTrim (joinBlank es) = joinBlank es) :
    reSplit "\n+" (strTrim (joinBlank es)) = es
    ∧ ∀ chunk ∈ reSplit "\n+" (strTrim (joinBlank es)), chunk ≠ "" := by
  have hdata_ne : (joinBlank es).data ≠ [] := by
    cases es with
    | nil => exact absurd rfl hne
    | cons s rest =>
      have hs : s ≠ "" := (hclean s (List.mem_cons_self s rest)).1
      have hsd : s.data ≠ [] := fun h => hs (strDataInj h)
      cases rest with
      | nil => exact hsd
      | cons r rs =>
        show (s ++ "\n\n" ++ joinBlank (r :: rs)).data ≠ []
        rw [strAppend_data, strAppend_data]
        simp [hsd]
  have hmain : reSplit "\n+" (strTrim (joinBlank es)) = es := by
    rw [htrim]
    rw [show reSplit "\n+" (joinBlank es)
        = reSplitRuns (fun c => c == '\n') (joinBlank es) from by rw [reSplit, if_pos rfl]]
    rw [reSplitRuns, if_neg hdata_ne, joinBlank_data]
    rw [filter_splitOnPL_joinBlankL (es.map String.data)
      (by simpa using hne)
      (by
        intro t ht
        rw [List.mem_map] at ht
        obtain ⟨s, hs, rfl⟩ := ht
        have h := hclean s hs
        exact ⟨fun hd => h.1 (strDataInj hd), h.2⟩)]
    rw [List.map_map]
    rw [show ((fun g => (⟨g⟩ : String)) ∘ String.data) = id from rfl, List.map_id]
  refine ⟨hmain, ?_⟩
  rw [hmain]
  intro chunk hchunk
  exact (hclean chunk hchunk).1

/-- Counterexample to C5 as stated: `ImportList.__init__`'s default entry
delimiter is the literal single newline `"\n"`, and with that default
configuration a raw text whose two entries are separated by a blank line
splits into three chunks, the middle one empty — which `parseText` turns
into an empty `("", "")` tuple. -/
theorem c5_counterexample :
    defaultImportList.entryDelimiter = "\n"
    ∧ defaultImportList.entryDelimiter ≠ "\n+"
    ∧ reSplit defaultImportList.entryDelimiter
        (strTrim "cat: feline\n\nveggie: plant")
      = ["cat: feline", "", "veggie: plant"]
    ∧ (ImportList.parseText (fun _ => none)
        { defaultImportList with rawText := "cat: feline\n\nveggie: plant" }).2
      = [("cat", "feline"), ("", ""), ("veggie", "plant")] :=
  ⟨rfl, by decide, by decide, by decide⟩

/-- Witness for the amended C5: two concrete entries joined by a blank line
split back into exactly those two chunks under the `"\n+"` delimiter. -/
theorem c5_witness :
    (["cat: feline", "veggie: plant"] : List String) ≠ []
    ∧ (∀ s ∈ (["cat: feline", "veggie: plant"] : List String),
        s ≠ "" ∧ ∀ c ∈ s.data, c ≠ '\n')
    ∧ strTrim (joinBlank ["cat: feline", "veggie: plant"])
        = joinBlank ["cat: feline", "veggie: plant"]
    ∧ reSplit "\n+" (strTrim (joinBlank ["cat: feline", "veggie: plant"]))
        = ["cat: feline", "veggie: plant"] :=
  ⟨by decide, by decide, by decide,
    (c5_nplus_delimiter_collapses_blank_lines ["cat: feline", "veggie: plant"]
      (by decide) (by decide) (by decide)).1⟩
